import Mathlib

/-!
Verification of the contig-shredding core of `src/assembly/ca.py`.

The window planner inside `shred` and the record formatting of
`emitFragment` / `frgTemplate` / `headerTemplate` are embedded as Lean
functions.  Python 2 semantics are modelled as follows: integer `/` on
ints is floor division (`Int.fdiv`); the float expression
`center_range_width * 1. / (numreads - 1)` is modelled as an exact
rational; Python's `int()` on a float truncates toward zero (`pyInt`);
string slicing `seq[begin:end]` clamps its endpoints (`pySlice`).
-/

namespace CA

/-- Python `int(x)` on a real value: truncation toward zero. -/
def pyInt (q : ℚ) : ℤ := if q < 0 then ⌈q⌉ else ⌊q⌋

/-- One clamped slice endpoint of Python `s[b:e]` on a string of length
`len`: a negative index counts from the end (clamped below at 0), a
non-negative one is clamped above at `len`. -/
def pySliceIdx (len : ℕ) (i : ℤ) : ℕ :=
  if i < 0 then ((len : ℤ) + i).toNat else min i.toNat len

/-- Python string slice `s[b:e]` (step 1). -/
def pySlice (s : String) (b e : ℤ) : String :=
  String.mk ((s.data.take (pySliceIdx s.length e)).drop (pySliceIdx s.length b))

/-- `DEFAULTQV = chr(ord('0') + 13)` from `ca.py`. -/
def DEFAULTQV : Char := Char.ofNat ('0'.toNat + 13)

/-- The inner loop of the window planner in `shred` (`ca.py` lines
252-263): for each index `i` compute `begin = int(step * i)` and
`end = int(step * i + shredlen)`, skipping the window when `begin`
equals the previous emitted `begin`. -/
def shredRangesGo (step : ℚ) (shredlen : ℤ) : List ℕ → ℤ → List (ℤ × ℤ)
  | [], _ => []
  | i :: is, prevBegin =>
    if pyInt (step * (i : ℚ)) = prevBegin then
      shredRangesGo step shredlen is prevBegin
    else
      (pyInt (step * (i : ℚ)), pyInt (step * (i : ℚ) + (shredlen : ℚ))) ::
        shredRangesGo step shredlen is (pyInt (step * (i : ℚ)))

/-- The window planner of `shred` (`ca.py` lines 244-263):
`shredlen = min(seqlen - 50, readlen)`,
`numreads = max(seqlen * depth / shredlen, 1)` (Python 2 floor
division), `center_range_width = seqlen - shredlen`; one window
`(0, shredlen)` when `numreads == 1`, otherwise windows at rational
increments `center_range_width / (numreads - 1)` with duplicate-start
suppression starting from `prev_begin = -1`. -/
def shredRanges (seqlen readlen depth : ℤ) : List (ℤ × ℤ) :=
  let shredlen : ℤ := min (seqlen - 50) readlen
  let numreads : ℤ := max (Int.fdiv (seqlen * depth) shredlen) 1
  let crw : ℤ := seqlen - shredlen
  if numreads = 1 then [(0, shredlen)]
  else
    let step : ℚ := (crw : ℚ) / ((numreads : ℚ) - 1)
    shredRangesGo step shredlen (List.range numreads.toNat) (-1)

/-- The Biopython `SeqRecord(shredded_seq, id=fragID, description="")`
constructed by the plain (fasta) branch of `emitFragment`. -/
structure SeqRecord where
  seq : String
  id : String
  description : String
deriving DecidableEq

/-- Output of one `emitFragment` call: a plain fasta record or the
lines of one structured FRG block. -/
inductive FragOut where
  | fasta (rec : SeqRecord)
  | frg (lines : List String)
deriving DecidableEq

/-- The lines of `frgTemplate` from `ca.py` with the five placeholders
substituted (`\x7b` / `\x7d` are the literal braces of the format). -/
def frgTemplateLines (fragID libID seq qvs : String) (slen : ℕ) : List String :=
  ["\x7bFRG", "act:A", "acc:" ++ fragID, "rnd:1", "sta:G", "lib:" ++ libID,
   "pla:0", "loc:0", "src:", ".", "seq:", seq, ".", "qlt:", qvs, ".",
   "hps:", ".", "clr:0," ++ toString slen, "\x7d"]

/-- The rendered `frgTemplate` string. -/
def frgTemplate (fragID libID seq qvs : String) (slen : ℕ) : String :=
  String.intercalate "\n" (frgTemplateLines fragID libID seq qvs slen)

/-- The lines of `headerTemplate` from `ca.py` with `libID`
substituted. -/
def headerTemplateLines (libID : String) : List String :=
  ["\x7bVER", "ver:2", "\x7d", "\x7bLIB", "act:A", "acc:" ++ libID, "ori:U",
   "mea:0.0", "std:0.0", "src:", ".", "nft:4", "fea:",
   "doTrim_initialQualityBased=0", "doTrim_finalEvidenceBased=0",
   "doRemoveSpurReads=0", "doRemoveChimericReads=0", ".", "\x7d"]

/-- The rendered `headerTemplate` string. -/
def headerTemplate (libID : String) : String :=
  String.intercalate "\n" (headerTemplateLines libID)

/-- `emitFragment` from `ca.py`: in fasta mode a plain
`SeqRecord(shredded_seq, id=fragID, description="")`; otherwise the
structured block with `slen = len(seq)`, `qvs = DEFAULTQV * slen` and
clear range `0,slen`. -/
def emitFragment (fasta : Bool) (fragID libID shredded_seq : String) : FragOut :=
  if fasta then .fasta ⟨shredded_seq, fragID, ""⟩
  else
    let seq := shredded_seq
    let slen := seq.length
    let qvs := String.mk (List.replicate slen DEFAULTQV)
    .frg (frgTemplateLines fragID libID seq qvs slen)

/-- The lines held by a structured `FragOut` (empty for a fasta
record). -/
def fragLines : FragOut → List String
  | .fasta _ => []
  | .frg l => l

/-- The fragment identifier
`"{0}.{1}.frag{2}.{3}-{4}".format(libID, ctgID, shredID, begin, end)`
built in `shred`. -/
def mkFragID (libID : String) (ctgID shredID : ℕ) (b e : ℤ) : String :=
  libID ++ "." ++ toString ctgID ++ ".frag" ++ toString shredID ++ "." ++
    toString b ++ "-" ++ toString e

/-- The per-sequence body of the `shred` loop (`ca.py` lines 238-268):
a sequence shorter than `minctglen` is skipped outright; otherwise each
planned window is sliced out and handed to `emitFragment`. -/
def fragsForSeq (fasta : Bool) (libID : String) (ctgID : ℕ)
    (minctglen readlen depth : ℤ) (seq : String) : List FragOut :=
  if (seq.length : ℤ) < minctglen then []
  else
    ((shredRanges (seq.length : ℤ) readlen depth).enum).map fun p =>
      emitFragment fasta (mkFragID libID ctgID p.1 p.2.1 p.2.2) libID
        (pySlice seq p.2.1 p.2.2)

/-- One record of the output stream of a `shred` run: the one-time
library header block or one fragment record. -/
inductive OutRecord where
  | header (lines : List String)
  | frag (f : FragOut)
deriving DecidableEq

/-- Whether an output record is the library header block. -/
def isHeaderRec : OutRecord → Bool
  | .header _ => true
  | .frag _ => false

/-- The stream records contributed by the sequence at enumerate index
`p.1` with residues `p.2`. -/
def seqContrib (fasta : Bool) (libID : String) (minctglen readlen depth : ℤ)
    (p : ℕ × String) : List OutRecord :=
  (fragsForSeq fasta libID p.1 minctglen readlen depth p.2).map OutRecord.frag

/-- The full output stream of one `shred` run over the sequences
`seqs` (in stored order): in structured mode the header block printed
once up front (`ca.py` lines 223-224), then the fragment records of
each sequence in enumerate order. -/
def shredStream (fasta : Bool) (libID : String) (minctglen readlen depth : ℤ)
    (seqs : List String) : List OutRecord :=
  (if fasta then [] else [OutRecord.header (headerTemplateLines libID)]) ++
    (seqs.enum.map (seqContrib fasta libID minctglen readlen depth)).flatten

/-- Modelled from the spec: `must_open(outfile, "w", checkexists=True)`
comes from `jcvi.formats.base`, which is part of this repository but
not under `src/`; per the spec it refuses to create the destination
when the path already exists, so the run aborts before any record is
written. -/
def mustOpenWrite (pathExists : Bool) (content : List OutRecord) :
    Option (List OutRecord) :=
  if pathExists then none else some content

/-- A whole `shred` run: the output file is opened with
`checkexists=True` before anything is printed, so an existing
destination aborts the run with no output at all. -/
def shredRun (pathExists fasta : Bool) (libID : String)
    (minctglen readlen depth : ℤ) (seqs : List String) :
    Option (List OutRecord) :=
  mustOpenWrite pathExists (shredStream fasta libID minctglen readlen depth seqs)

/-! ### Helper lemmas about `pyInt` and the planner loop -/

theorem pyInt_of_nonneg {q : ℚ} (h : 0 ≤ q) : pyInt q = ⌊q⌋ :=
  if_neg (not_lt.2 h)

theorem pyInt_nonneg {q : ℚ} (h : 0 ≤ q) : 0 ≤ pyInt q := by
  rw [pyInt_of_nonneg h]
  exact Int.floor_nonneg.2 h

theorem pyInt_add_int {q : ℚ} (h : 0 ≤ q) {n : ℤ} (hn : 0 ≤ n) :
    pyInt (q + (n : ℚ)) = pyInt q + n := by
  have hqn : 0 ≤ q + (n : ℚ) := by
    have : (0 : ℚ) ≤ (n : ℚ) := by exact_mod_cast hn
    linarith
  rw [pyInt_of_nonneg h, pyInt_of_nonneg hqn, Int.floor_add_int]

theorem pyInt_mono {p q : ℚ} (h0 : 0 ≤ p) (hpq : p ≤ q) : pyInt p ≤ pyInt q := by
  rw [pyInt_of_nonneg h0, pyInt_of_nonneg (h0.trans hpq)]
  exact Int.floor_le_floor hpq

theorem pyInt_le_int {q : ℚ} {m : ℤ} (h0 : 0 ≤ q) (h : q ≤ (m : ℚ)) :
    pyInt q ≤ m := by
  rw [pyInt_of_nonneg h0]
  calc ⌊q⌋ ≤ ⌊(m : ℚ)⌋ := Int.floor_le_floor h
    _ = m := Int.floor_intCast m

/-- Every window produced by the planner loop comes from some index of
the input list and has the shape `(int(step*i), int(step*i + L))`. -/
theorem shredRangesGo_mem {step : ℚ} {shredlen : ℤ} :
    ∀ {is : List ℕ} {prevBegin : ℤ} {p : ℤ × ℤ},
      p ∈ shredRangesGo step shredlen is prevBegin →
      ∃ i ∈ is, p = (pyInt (step * (i : ℚ)), pyInt (step * (i : ℚ) + (shredlen : ℚ))) := by
  intro is
  induction is with
  | nil => intro prevBegin p h; simp [shredRangesGo] at h
  | cons i is ih =>
    intro prevBegin p h
    rw [shredRangesGo] at h
    split at h
    · obtain ⟨j, hj, hp⟩ := ih h
      exact ⟨j, List.mem_cons_of_mem _ hj, hp⟩
    · rcases List.mem_cons.1 h with hp | hp
      · exact ⟨i, List.mem_cons_self _ _, hp⟩
      · obtain ⟨j, hj, hpj⟩ := ih hp
        exact ⟨j, List.mem_cons_of_mem _ hj, hpj⟩

/-- On a non-decreasing index list, the emitted `begin`s are strictly
increasing and all lie strictly above the incoming `prev_begin`. -/
theorem shredRangesGo_chain {step : ℚ} {shredlen : ℤ} (hstep : 0 ≤ step) :
    ∀ (is : List ℕ) (prevBegin : ℤ),
      List.Pairwise (· ≤ ·) is →
      (∀ i ∈ is, prevBegin ≤ pyInt (step * (i : ℚ))) →
      List.Chain' (· < ·) ((shredRangesGo step shredlen is prevBegin).map Prod.fst) ∧
        ∀ p ∈ shredRangesGo step shredlen is prevBegin, prevBegin < p.1 := by
  intro is
  induction is with
  | nil => intro prevBegin _ _; simp [shredRangesGo]
  | cons i is ih =>
    intro prevBegin hpw hlb
    have hmono : ∀ j ∈ is, pyInt (step * (i : ℚ)) ≤ pyInt (step * (j : ℚ)) := by
      intro j hj
      have hij : (i : ℚ) ≤ (j : ℚ) := by
        exact_mod_cast (List.pairwise_cons.1 hpw).1 j hj
      exact pyInt_mono (mul_nonneg hstep (Nat.cast_nonneg i))
        (mul_le_mul_of_nonneg_left hij hstep)
    rw [shredRangesGo]
    split
    · rename_i heq
      refine ih prevBegin (List.pairwise_cons.1 hpw).2 ?_
      intro j hj
      calc prevBegin = pyInt (step * (i : ℚ)) := heq.symm
        _ ≤ pyInt (step * (j : ℚ)) := hmono j hj
    · rename_i hne
      have hlt : prevBegin < pyInt (step * (i : ℚ)) :=
        lt_of_le_of_ne (hlb i (List.mem_cons_self _ _)) (Ne.symm hne)
      obtain ⟨hchain, habove⟩ :=
        ih (pyInt (step * (i : ℚ))) (List.pairwise_cons.1 hpw).2 hmono
      constructor
      · rw [List.map_cons]
        refine List.chain'_cons'.2 ⟨?_, hchain⟩
        intro y hy
        rw [List.head?_map] at hy
        obtain ⟨p, hp, rfl⟩ := Option.map_eq_some'.1 hy
        exact habove p (List.mem_of_mem_head? hp)
      · intro p hp
        rcases List.mem_cons.1 hp with hp | hp
        · rw [hp]; exact hlt
        · exact hlt.trans (habove p hp)

/-- The planner loop starting at index `0` with `prev_begin = -1`
always emits its first window. -/
theorem shredRangesGo_zero_ne_nil (step : ℚ) (shredlen : ℤ) (is : List ℕ) :
    shredRangesGo step shredlen (0 :: is) (-1) ≠ [] := by
  rw [shredRangesGo]
  have h0 : pyInt (step * ((0 : ℕ) : ℚ)) = 0 := by
    have hz : step * ((0 : ℕ) : ℚ) = 0 := by push_cast; ring
    rw [hz, pyInt_of_nonneg le_rfl, Int.floor_zero]
  rw [if_neg (by rw [h0]; decide)]
  exact List.cons_ne_nil _ _

/-- With a positive effective read length the planner emits at least
one window. -/
theorem shredRanges_ne_nil (seqlen readlen depth : ℤ)
    (hL : 0 < min (seqlen - 50) readlen) :
    shredRanges seqlen readlen depth ≠ [] := by
  simp only [shredRanges]
  set L := min (seqlen - 50) readlen with hLd
  set N := max (Int.fdiv (seqlen * depth) L) 1 with hNd
  have hN1 : 1 ≤ N := le_max_right _ _
  split
  · simp
  · rename_i hN
    obtain ⟨k, hk⟩ : ∃ k, N.toNat = k + 1 := ⟨N.toNat - 1, by omega⟩
    rw [hk, List.range_succ_eq_map]
    exact shredRangesGo_zero_ne_nil _ _ _

/-- Every window of the planner has a non-negative start, starts no
later than `seqlen - L`, and ends exactly `L` after its start, where
`L = min (seqlen - 50, readlen)` is the effective read length. -/
theorem shredRanges_mem_spec (seqlen readlen depth : ℤ)
    (hL : 0 < min (seqlen - 50) readlen) :
    ∀ p ∈ shredRanges seqlen readlen depth,
      0 ≤ p.1 ∧ p.1 ≤ seqlen - min (seqlen - 50) readlen ∧
        p.2 = p.1 + min (seqlen - 50) readlen := by
  intro p hp
  have hL50 : min (seqlen - 50) readlen ≤ seqlen - 50 := min_le_left _ _
  simp only [shredRanges] at hp
  set L := min (seqlen - 50) readlen with hLd
  set N := max (Int.fdiv (seqlen * depth) L) 1 with hNd
  have hN1 : 1 ≤ N := le_max_right _ _
  split at hp
  · rcases List.mem_singleton.1 hp with rfl
    refine ⟨le_rfl, by omega, by omega⟩
  · rename_i hN
    have hN2 : 2 ≤ N := by omega
    have hcrw : (0 : ℤ) ≤ seqlen - L := by omega
    have hden : (1 : ℚ) ≤ (N : ℚ) - 1 := by
      have : (2 : ℚ) ≤ (N : ℚ) := by exact_mod_cast hN2
      linarith
    have hstep : (0 : ℚ) ≤ ((seqlen - L : ℤ) : ℚ) / ((N : ℚ) - 1) :=
      div_nonneg (by exact_mod_cast hcrw) (by linarith)
    obtain ⟨i, hi, rfl⟩ := shredRangesGo_mem hp
    set step : ℚ := ((seqlen - L : ℤ) : ℚ) / ((N : ℚ) - 1) with hstepd
    have hq0 : (0 : ℚ) ≤ step * (i : ℚ) :=
      mul_nonneg hstep (Nat.cast_nonneg i)
    have hiN : (i : ℚ) ≤ (N : ℚ) - 1 := by
      have h1 : i < N.toNat := List.mem_range.1 hi
      have h2 : (i : ℤ) ≤ N - 1 := by omega
      have h3 : ((i : ℤ) : ℚ) ≤ ((N - 1 : ℤ) : ℚ) := by exact_mod_cast h2
      push_cast at h3 ⊢
      linarith
    have hub : step * (i : ℚ) ≤ ((seqlen - L : ℤ) : ℚ) := by
      calc step * (i : ℚ) ≤ step * ((N : ℚ) - 1) :=
            mul_le_mul_of_nonneg_left hiN hstep
        _ = ((seqlen - L : ℤ) : ℚ) := div_mul_cancel₀ _ (by linarith)
    refine ⟨pyInt_nonneg hq0, pyInt_le_int hq0 hub, ?_⟩
    exact pyInt_add_int hq0 hL.le

/-! ### Claim theorems -/

/-- C1: for every input with `seqlen >= minctglen` and effective read
length `min (seqlen - 50) readlen > 0`, the window planner returns at
least one window, and every window `(begin, end)` satisfies
`0 <= begin < end <= seqlen`. -/
theorem shred_windows_wellformed (seqlen readlen depth minctglen : ℤ)
    (hmin : minctglen ≤ seqlen) (hL : 0 < min (seqlen - 50) readlen) :
    shredRanges seqlen readlen depth ≠ [] ∧
      ∀ p ∈ shredRanges seqlen readlen depth,
        0 ≤ p.1 ∧ p.1 < p.2 ∧ p.2 ≤ seqlen := by
  refine ⟨shredRanges_ne_nil seqlen readlen depth hL, ?_⟩
  intro p hp
  obtain ⟨h0, hle, he⟩ := shredRanges_mem_spec seqlen readlen depth hL p hp
  have hL50 : min (seqlen - 50) readlen ≤ seqlen - 50 := min_le_left _ _
  exact ⟨h0, by omega, by omega⟩

/-- Witness for C1 at `seqlen = 2150`, `readlen = 1000`, `depth = 2`,
`minctglen = 150`. -/
theorem shred_windows_wellformed_witness :
    ((150 : ℤ) ≤ 2150 ∧ (0 : ℤ) < min ((2150 : ℤ) - 50) 1000) ∧
      (shredRanges 2150 1000 2 ≠ [] ∧
        ∀ p ∈ shredRanges 2150 1000 2, 0 ≤ p.1 ∧ p.1 < p.2 ∧ p.2 ≤ 2150) :=
  ⟨⟨by norm_num, by norm_num⟩,
    shred_windows_wellformed 2150 1000 2 150 (by norm_num) (by norm_num)⟩

/-- C2: under the same preconditions every window of the planner ends
exactly `min (seqlen - 50) readlen` after its (truncated, not rounded)
start. -/
theorem shred_windows_exact_length (seqlen readlen depth minctglen : ℤ)
    (hmin : minctglen ≤ seqlen) (hL : 0 < min (seqlen - 50) readlen) :
    ∀ p ∈ shredRanges seqlen readlen depth,
      p.2 = p.1 + min (seqlen - 50) readlen ∧
        p.2 - p.1 = min (seqlen - 50) readlen := by
  intro p hp
  obtain ⟨-, -, he⟩ := shredRanges_mem_spec seqlen readlen depth hL p hp
  exact ⟨he, by omega⟩

/-- Witness for C2 at `seqlen = 2150`, `readlen = 1000`, `depth = 2`,
`minctglen = 150`. -/
theorem shred_windows_exact_length_witness :
    ((150 : ℤ) ≤ 2150 ∧ (0 : ℤ) < min ((2150 : ℤ) - 50) 1000) ∧
      ∀ p ∈ shredRanges 2150 1000 2,
        p.2 = p.1 + min ((2150 : ℤ) - 50) 1000 ∧
          p.2 - p.1 = min ((2150 : ℤ) - 50) 1000 :=
  ⟨⟨by norm_num, by norm_num⟩,
    shred_windows_exact_length 2150 1000 2 150 (by norm_num) (by norm_num)⟩

/-- C3: the `begin` values of consecutive emitted windows are strictly
increasing, hence pairwise distinct. -/
theorem shred_windows_strictly_increasing (seqlen readlen depth : ℤ)
    (hL : 0 < min (seqlen - 50) readlen) :
    List.Chain' (· < ·) ((shredRanges seqlen readlen depth).map Prod.fst) ∧
      List.Pairwise (· ≠ ·) ((shredRanges seqlen readlen depth).map Prod.fst) := by
  have hchain :
      List.Chain' (· < ·) ((shredRanges seqlen readlen depth).map Prod.fst) := by
    have hL50 : min (seqlen - 50) readlen ≤ seqlen - 50 := min_le_left _ _
    simp only [shredRanges]
    set L := min (seqlen - 50) readlen with hLd
    set N := max (Int.fdiv (seqlen * depth) L) 1 with hNd
    have hN1 : 1 ≤ N := le_max_right _ _
    split
    · simp
    · rename_i hN
      have hN2 : 2 ≤ N := by omega
      have hcrw : (0 : ℤ) ≤ seqlen - L := by omega
      have hden : (1 : ℚ) ≤ (N : ℚ) - 1 := by
        have : (2 : ℚ) ≤ (N : ℚ) := by exact_mod_cast hN2
        linarith
      have hstep : (0 : ℚ) ≤ ((seqlen - L : ℤ) : ℚ) / ((N : ℚ) - 1) :=
        div_nonneg (by exact_mod_cast hcrw) (by linarith)
      refine (shredRangesGo_chain hstep (List.range N.toNat) (-1) ?_ ?_).1
      · exact List.sorted_le_range N.toNat
      · intro i _
        have := pyInt_nonneg
          (mul_nonneg hstep (Nat.cast_nonneg i) :
            (0 : ℚ) ≤ ((seqlen - L : ℤ) : ℚ) / ((N : ℚ) - 1) * (i : ℚ))
        omega
  refine ⟨hchain, ?_⟩
  have hpw : List.Pairwise (· < ·)
      ((shredRanges seqlen readlen depth).map Prod.fst) :=
    List.chain'_iff_pairwise.1 hchain
  exact hpw.imp ne_of_lt

/-- Witness for C3 at `seqlen = 2150`, `readlen = 1000`, `depth = 2`. -/
theorem shred_windows_strictly_increasing_witness :
    ((0 : ℤ) < min ((2150 : ℤ) - 50) 1000) ∧
      (List.Chain' (· < ·) ((shredRanges 2150 1000 2).map Prod.fst) ∧
        List.Pairwise (· ≠ ·) ((shredRanges 2150 1000 2).map Prod.fst)) :=
  ⟨by norm_num, shred_windows_strictly_increasing 2150 1000 2 (by norm_num)⟩

/-- C4: the concrete scenario `seqlen = 2150`, `readlen = 1000`,
`depth = 2`: effective read length `1000`, `numreads = 4`,
`center_range_width = 1150`, rational step `1150/3`, and exactly the
four windows `[0,1000)`, `[383,1383)`, `[766,1766)`, `[1150,2150)`
with pairwise distinct begins and last end equal to the length. -/
theorem shred_concrete_2150 :
    min ((2150 : ℤ) - 50) 1000 = 1000 ∧
      max (Int.fdiv ((2150 : ℤ) * 2) (min ((2150 : ℤ) - 50) 1000)) 1 = 4 ∧
      (2150 : ℤ) - min ((2150 : ℤ) - 50) 1000 = 1150 ∧
      (1150 : ℚ) / ((4 : ℚ) - 1) = 1150 / 3 ∧
      shredRanges 2150 1000 2 = [(0, 1000), (383, 1383), (766, 1766), (1150, 2150)] ∧
      List.Pairwise (· ≠ ·) ((shredRanges 2150 1000 2).map Prod.fst) ∧
      (shredRanges 2150 1000 2).getLast? = some (1150, 2150) := by
  have h1 : Int.fdiv ((2150 : ℤ) * 2) (min ((2150 : ℤ) - 50) 1000) = 4 := by decide
  have hmain :
      shredRanges 2150 1000 2 = [(0, 1000), (383, 1383), (766, 1766), (1150, 2150)] := by
    simp only [shredRanges, h1]
    norm_num
    have hr : List.range (Int.toNat 4) = [0, 1, 2, 3] := rfl
    rw [hr]
    have f0 : pyInt 0 = 0 := by rw [pyInt]; norm_num
    have e0 : pyInt 1000 = 1000 := by rw [pyInt]; norm_num [Int.floor_eq_iff]
    have f1 : pyInt (1150 / 3) = 383 := by rw [pyInt]; norm_num [Int.floor_eq_iff]
    have e1 : pyInt (4150 / 3) = 1383 := by rw [pyInt]; norm_num [Int.floor_eq_iff]
    have f2 : pyInt (2300 / 3) = 766 := by rw [pyInt]; norm_num [Int.floor_eq_iff]
    have e2 : pyInt (5300 / 3) = 1766 := by rw [pyInt]; norm_num [Int.floor_eq_iff]
    have f3 : pyInt 1150 = 1150 := by rw [pyInt]; norm_num [Int.floor_eq_iff]
    have e3 : pyInt 2150 = 2150 := by rw [pyInt]; norm_num [Int.floor_eq_iff]
    simp only [shredRangesGo]
    norm_num [f0, e0, f1, e1, f2, e2, f3, e3]
  refine ⟨by norm_num, by rw [h1]; norm_num, by norm_num, by norm_num, hmain, ?_, ?_⟩
  · rw [hmain]; decide
  · rw [hmain]; rfl

/-- C5 counterexample: at `seqlen = 100`, `readlen = 100`, `depth = 1`
all stated preconditions hold (`readlen >= seqlen`, effective read
length `50 > 0`), yet the planner emits two windows, not one. -/
theorem shred_depth1_two_windows :
    (0 : ℤ) < min ((100 : ℤ) - 50) 100 ∧ (100 : ℤ) ≤ 100 ∧
      shredRanges 100 100 1 = [(0, 50), (50, 100)] ∧
      (shredRanges 100 100 1).length ≠ 1 := by
  have h1 : Int.fdiv ((100 : ℤ) * 1) (min ((100 : ℤ) - 50) 100) = 2 := by decide
  have hmain : shredRanges 100 100 1 = [(0, 50), (50, 100)] := by
    simp only [shredRanges, h1]
    norm_num
    have hr : List.range (Int.toNat 2) = [0, 1] := rfl
    rw [hr]
    have f0 : pyInt 0 = 0 := by rw [pyInt]; norm_num
    have e0 : pyInt 50 = 50 := by rw [pyInt]; norm_num [Int.floor_eq_iff]
    have e1 : pyInt 100 = 100 := by rw [pyInt]; norm_num [Int.floor_eq_iff]
    simp only [shredRangesGo]
    norm_num [f0, e0, e1]
  exact ⟨by norm_num, le_rfl, hmain, by rw [hmain]; decide⟩

/-- C5 amended: when `depth = 1`, `readlen >= seqlen` and additionally
`seqlen > 100` (which the default minimum contig length 150
guarantees), the planner produces exactly the single window
`[0, effective read length)`. -/
theorem shred_depth1_single_window (seqlen readlen : ℤ)
    (h100 : 100 < seqlen) (hlen : seqlen ≤ readlen) :
    shredRanges seqlen readlen 1 = [(0, min (seqlen - 50) readlen)] ∧
      min (seqlen - 50) readlen = seqlen - 50 := by
  have hminL : min (seqlen - 50) readlen = seqlen - 50 := min_eq_left (by omega)
  have hpos : (0 : ℤ) < seqlen - 50 := by omega
  have hfd : Int.fdiv (seqlen * 1) (seqlen - 50) = 1 := by
    rw [mul_one, Int.fdiv_eq_ediv _ (by omega)]
    have hlb : 1 ≤ seqlen / (seqlen - 50) :=
      (Int.le_ediv_iff_mul_le hpos).2 (by omega)
    have hub : seqlen / (seqlen - 50) < 2 :=
      (Int.ediv_lt_iff_lt_mul hpos).2 (by omega)
    omega
  refine ⟨?_, hminL⟩
  simp only [shredRanges, hminL, hfd]
  norm_num

/-- Witness for the amended C5 at `seqlen = 150`, `readlen = 1000`. -/
theorem shred_depth1_single_window_witness :
    ((100 : ℤ) < 150 ∧ (150 : ℤ) ≤ 1000) ∧
      (shredRanges 150 1000 1 = [(0, min ((150 : ℤ) - 50) 1000)] ∧
        min ((150 : ℤ) - 50) 1000 = 150 - 50) :=
  ⟨⟨by norm_num, by norm_num⟩,
    shred_depth1_single_window 150 1000 (by norm_num) (by norm_num)⟩

/-- C6: every structured fragment record carries a quality line of the
same length as its sequence line with every position equal to the
constant `DEFAULTQV`, and a clear-range line equal to
`"clr:0," ++ <length of the sequence line>`. -/
theorem frg_record_fields (fragID libID seq : String) :
    ∃ lines : List String,
      emitFragment false fragID libID seq = FragOut.frg lines ∧
      lines[11]? = some seq ∧
      (∃ qvs : String, lines[14]? = some qvs ∧ qvs.length = seq.length ∧
        ∀ c ∈ qvs.data, c = DEFAULTQV) ∧
      lines[18]? = some ("clr:0," ++ toString seq.length) := by
  refine ⟨frgTemplateLines fragID libID seq
      (String.mk (List.replicate seq.length DEFAULTQV)) seq.length,
    rfl, rfl, ⟨String.mk (List.replicate seq.length DEFAULTQV), rfl, ?_, ?_⟩, rfl⟩
  · rw [String.length_mk, List.length_replicate]
  · intro c hc
    exact List.eq_of_mem_replicate hc

/-- C7: in structured mode the library header block is the first
record of the stream, no later record is a header, and the whole
stream contains exactly one header, for any number of sequences. -/
theorem header_emitted_once (libID : String) (minctglen readlen depth : ℤ)
    (seqs : List String) :
    ∃ rest : List OutRecord,
      shredStream false libID minctglen readlen depth seqs =
        OutRecord.header (headerTemplateLines libID) :: rest ∧
      (∀ r ∈ rest, isHeaderRec r = false) ∧
      List.countP isHeaderRec (shredStream false libID minctglen readlen depth seqs) = 1 := by
  have hfrag : ∀ r ∈ (seqs.enum.map
      (seqContrib false libID minctglen readlen depth)).flatten,
      isHeaderRec r = false := by
    intro r hr
    obtain ⟨l, hl, hrl⟩ := List.mem_flatten.1 hr
    obtain ⟨p, _, rfl⟩ := List.mem_map.1 hl
    obtain ⟨f, _, rfl⟩ := List.mem_map.1 hrl
    rfl
  refine ⟨(seqs.enum.map (seqContrib false libID minctglen readlen depth)).flatten,
    rfl, hfrag, ?_⟩
  show List.countP _ (_ :: _) = 1
  rw [List.countP_cons_of_pos _ _ (by rfl), List.countP_eq_zero.2 ?_]
  · intro r hr
    simp [hfrag r hr]

/-- C9: when the destination already exists and exclusive creation is
requested, the run aborts with no output at all — not even the header
record is produced. -/
theorem abort_on_existing_output (fasta : Bool) (libID : String)
    (minctglen readlen depth : ℤ) (seqs : List String) :
    shredRun true fasta libID minctglen readlen depth seqs = none := rfl

/-- C10: in plain (fasta) mode the record written for a given slice
and fragment identifier is independent of the library identifier, and
contains only the identifier and the residues (no library metadata, no
quality values). -/
theorem plain_record_ignores_library (fragID libID₁ libID₂ seq : String) :
    emitFragment true fragID libID₁ seq = emitFragment true fragID libID₂ seq ∧
      emitFragment true fragID libID₁ seq =
        FragOut.fasta ⟨seq, fragID, ""⟩ :=
  ⟨rfl, rfl⟩

/-- C8: a sequence shorter than the minimum contig length contributes
no windows and no fragment records to the run, and the records of the
surrounding sequences remain exactly their own contributions at their
own enumerate indices. -/
theorem short_sequence_skipped (fasta : Bool) (libID : String) (ctgID : ℕ)
    (minctglen readlen depth : ℤ) (s : String) (xs ys : List String)
    (hshort : (s.length : ℤ) < minctglen) :
    fragsForSeq fasta libID ctgID minctglen readlen depth s = [] ∧
      shredStream false libID minctglen readlen depth (xs ++ s :: ys) =
        OutRecord.header (headerTemplateLines libID) ::
          ((xs.enum.map (seqContrib false libID minctglen readlen depth)).flatten ++
            ((List.enumFrom (xs.length + 1) ys).map
              (seqContrib false libID minctglen readlen depth)).flatten) := by
  have hskip : ∀ (fa : Bool) (cid : ℕ),
      fragsForSeq fa libID cid minctglen readlen depth s = [] := by
    intro fa cid
    rw [fragsForSeq, if_pos hshort]
  refine ⟨hskip fasta ctgID, ?_⟩
  rw [shredStream, List.enum_append, List.enumFrom_cons, List.map_append,
    List.map_cons, List.flatten_append, List.flatten_cons]
  have hmid : seqContrib false libID minctglen readlen depth (xs.length, s) = [] := by
    rw [seqContrib, hskip]
    rfl
  rw [hmid]
  simp

/-- Witness for C8: a four-residue sequence against the default
threshold 150, as the only sequence of the run. -/
theorem short_sequence_skipped_witness :
    ((("ACGT".length : ℤ) < 150) ∧
      (fragsForSeq false "lib" 0 150 1000 2 "ACGT" = [] ∧
        shredStream false "lib" 150 1000 2 ["ACGT"] =
          [OutRecord.header (headerTemplateLines "lib")])) :=
  ⟨by decide, short_sequence_skipped false "lib" 0 150 1000 2 "ACGT" [] [] (by decide)⟩

end CA
